import Mathlib

set_option maxHeartbeats 1000000

namespace GSlides

/-! Shallow embedding of the markdown-to-presentation formatting core of the
google-slides-mcp repository.  JavaScript strings are modelled as `List Char`;
JavaScript numbers are modelled as `ℚ` where fractional arithmetic occurs
(font sizing) and as `ℕ` where only string lengths are compared. -/

/-- Shorthand turning a Lean string literal into the character-list model. -/
def chars (s : String) : List Char := s.data

/-- Whitespace recognised by JavaScript `trim`, `trimStart` and the regex class
`\s`: the ASCII whitespace characters plus NBSP and the BOM. -/
def isSpaceJS (c : Char) : Bool :=
  c == ' ' || c == '\t' || c == '\n' || c == '\x0b' || c == '\x0c' || c == '\r' ||
  c == '\u00A0' || c == '\uFEFF'

/-- JavaScript `String.prototype.trimStart`. -/
def jsTrimStart (l : List Char) : List Char := l.dropWhile isSpaceJS

/-- JavaScript `String.prototype.trim`. -/
def jsTrim (l : List Char) : List Char :=
  ((l.dropWhile isSpaceJS).reverse.dropWhile isSpaceJS).reverse

/-- Prepend a character to the first piece of a split result. -/
def consHead (c : Char) : List (List Char) → List (List Char)
  | [] => [[c]]
  | h :: t => (c :: h) :: t

/-- JavaScript `s.split(sep)` for a one-character separator. -/
def splitOn1 (sep : Char) : List Char → List (List Char)
  | [] => [[]]
  | c :: rest => if c = sep then [] :: splitOn1 sep rest else consHead c (splitOn1 sep rest)

/-- JavaScript `s.split(sep)` for a two-character separator (used for the
separators `"\n\n"` and `". "`): leftmost non-overlapping occurrences. -/
def splitOn2 (a b : Char) : List Char → List (List Char)
  | [] => [[]]
  | [c] => [[c]]
  | c :: d :: rest =>
    if c = a ∧ d = b then [] :: splitOn2 a b rest
    else consHead c (splitOn2 a b (d :: rest))

/-! ## slideHelpers.ts -/

/-- Estimated text extent, `{ width, height }` in points. -/
structure Dimensions where
  width : ℚ
  height : ℚ

/-- `estimateTextDimensions` from slideHelpers.ts: average glyph width is
`fontSize * 0.6`, line height `fontSize * 1.2`; width uses the longest
newline-separated line, height the number of lines. -/
def estimateTextDimensions (text : List Char) (fontSize : ℚ) : Dimensions :=
  let avgCharWidth := fontSize * 0.6
  let lineHeight := fontSize * 1.2
  let lines := splitOn1 '\n' text
  let maxLineLength := (lines.map List.length).foldl max 0
  { width := (maxLineLength : ℚ) * avgCharWidth
    height := (lines.length : ℚ) * lineHeight }

/-- A font-size range `{ min, max, default }`. -/
structure FontSizeRange where
  min : ℚ
  max : ℚ
  default : ℚ

/-- The fitting test of `calculateOptimalFontSize`:
`dimensions.width <= containerWidth && dimensions.height <= containerHeight`. -/
def fitsBox (text : List Char) (containerWidth containerHeight : ℚ) (fontSize : ℚ) : Bool :=
  let dimensions := estimateTextDimensions text fontSize
  decide (dimensions.width ≤ containerWidth) && decide (dimensions.height ≤ containerHeight)

/-- Number of iterations of the JavaScript loop
`for (f = dflt; f >= mn; f -= 2)`: zero when `dflt < mn`, otherwise
`⌊(dflt - mn) / 2⌋ + 1`. -/
def downCount (mn dflt : ℚ) : ℕ :=
  if dflt < mn then 0 else (⌊(dflt - mn) / 2⌋ + 1).toNat

/-- The exact sequence of font sizes visited by phase 1 of
`calculateOptimalFontSize` (`dflt, dflt - 2, …` while `≥ mn`). -/
def phase1Sizes (mn dflt : ℚ) : List ℚ :=
  (List.range (downCount mn dflt)).map (fun j : ℕ => dflt - 2 * (j : ℚ))

/-- Number of iterations of the JavaScript loop
`for (f = dflt + 2; f <= mx; f += 2)`. -/
def upCount (mx dflt : ℚ) : ℕ :=
  if mx < dflt + 2 then 0 else (⌊(mx - (dflt + 2)) / 2⌋ + 1).toNat

/-- The exact sequence of font sizes visited by phase 2 of
`calculateOptimalFontSize` (`dflt + 2, dflt + 4, …` while `≤ mx`). -/
def phase2Sizes (mx dflt : ℚ) : List ℚ :=
  (List.range (upCount mx dflt)).map (fun j : ℕ => dflt + 2 + 2 * (j : ℚ))

/-- `calculateOptimalFontSize` from slideHelpers.ts.  Phase 1 scans down from
the default by 2 and returns the first fitting size (`find?` over the visited
sizes is the loop with its `break`).  Phase 2 runs only when phase 1 left
`optimalSize == fontSizeRange.default`; it accepts sizes upward by 2 while
they keep fitting, i.e. the accepted sizes are the maximal fitting prefix of
the visited sizes, and the result is the last accepted one
(`default + 2 * prefixLength`, the default itself when the prefix is empty). -/
def calculateOptimalFontSize (text : List Char) (containerWidth containerHeight : ℚ)
    (fontSizeRange : FontSizeRange) : ℚ :=
  let fits := fitsBox text containerWidth containerHeight
  let optimalSize :=
    ((phase1Sizes fontSizeRange.min fontSizeRange.default).find? fits).getD
      fontSizeRange.default
  if optimalSize = fontSizeRange.default then
    fontSizeRange.default +
      2 * (((phase2Sizes fontSizeRange.max fontSizeRange.default).takeWhile fits).length : ℚ)
  else optimalSize

/-- State of `splitTextForSlides`: the emitted chunks and the accumulating
`currentSlide`. -/
structure SplitState where
  slides : List (List Char)
  current : List Char

/-- JavaScript `currentSlide.endsWith('.')`. -/
def endsWithDot (l : List Char) : Bool := l.getLast? == some '.'

/-- The hard-chunking `while` loop of `splitTextForSlides`, fuelled: while the
sentence is longer than the budget, emit its first `n - 3` characters plus
`"..."` and continue with the remainder.  The fuel (the sentence length at
entry, see `hardChunk`) suffices whenever `4 ≤ n`; for `n ≤ 3` the JavaScript
loop does not terminate. -/
def hardChunkAux (n : ℕ) : ℕ → List Char → List (List Char) × List Char
  | 0, s => ([], s)
  | fuel + 1, s =>
    if n < s.length then
      let chunk := s.take (n - 3) ++ ['.', '.', '.']
      let p := hardChunkAux n fuel (s.drop (n - 3))
      (chunk :: p.1, p.2)
    else ([], s)

/-- Hard-chunk a sentence: the emitted `"..."`-terminated chunks and the final
remainder. -/
def hardChunk (n : ℕ) (s : List Char) : List (List Char) × List Char :=
  hardChunkAux n s.length s

/-- The body of the sentence loop of `splitTextForSlides`. -/
def processSentence (n : ℕ) (st : SplitState) (sentence : List Char) : SplitState :=
  if st.current.length + sentence.length + 2 ≤ n then
    { st with current := st.current ++ (if st.current.isEmpty then [] else ['.', ' ']) ++ sentence }
  else
    let st1 : SplitState :=
      if st.current.isEmpty then st
      else { slides := st.slides ++ [st.current ++ (if endsWithDot st.current then [] else ['.'])]
             current := [] }
    if n < sentence.length then
      { slides := st1.slides ++ (hardChunk n sentence).1
        current := if (hardChunk n sentence).2.isEmpty then st1.current else (hardChunk n sentence).2 }
    else { st1 with current := sentence }

/-- The body of the paragraph loop of `splitTextForSlides`. -/
def processParagraph (n : ℕ) (st : SplitState) (paragraph : List Char) : SplitState :=
  if st.current.length + paragraph.length + 2 ≤ n then
    { st with current := st.current ++ (if st.current.isEmpty then [] else ['\n', '\n']) ++ paragraph }
  else
    let st1 : SplitState :=
      if st.current.isEmpty then st
      else { slides := st.slides ++ [st.current], current := [] }
    if n < paragraph.length then
      (splitOn2 '.' ' ' paragraph).foldl (processSentence n) st1
    else { st1 with current := paragraph }

/-- `splitTextForSlides` from slideHelpers.ts. -/
def splitTextForSlides (text : List Char) (maxCharsPerSlide : ℕ) : List (List Char) :=
  if text.length ≤ maxCharsPerSlide then [text]
  else
    let st := (splitOn2 '\n' '\n' text).foldl (processParagraph maxCharsPerSlide) ⟨[], []⟩
    let slides := st.slides ++ (if st.current.isEmpty then [] else [st.current])
    if slides.isEmpty then [text] else slides

/-! ## Lemmas about splitTextForSlides -/

/-- Every chunk emitted by the hard-chunking loop has length at most `n`
(`min (n - 3) len + 3 ≤ n` as soon as `3 ≤ n`). -/
theorem hardChunkAux_chunk_length {n : ℕ} (hn : 3 ≤ n) :
    ∀ fuel s, ∀ c ∈ (hardChunkAux n fuel s).1, c.length ≤ n := by
  intro fuel
  induction fuel with
  | zero => intro s c hc; simp [hardChunkAux] at hc
  | succ fuel ih =>
    intro s c hc
    rw [hardChunkAux] at hc
    by_cases h : n < s.length
    · rw [if_pos h] at hc
      rcases List.mem_cons.mp hc with rfl | hc'
      · simp only [List.length_append, List.length_take, List.length_cons, List.length_nil]
        omega
      · exact ih _ c hc'
    · rw [if_neg h] at hc
      simp at hc

/-- With fuel at least the sentence length and a budget `n ≥ 4`, the remainder
left by the hard-chunking loop fits the budget. -/
theorem hardChunkAux_rem_length {n : ℕ} (hn : 4 ≤ n) :
    ∀ fuel s, s.length ≤ fuel → (hardChunkAux n fuel s).2.length ≤ n := by
  intro fuel
  induction fuel with
  | zero =>
    intro s hs
    have h0 : s = [] := List.length_eq_zero.mp (Nat.le_zero.mp hs)
    subst h0
    exact Nat.zero_le n
  | succ fuel ih =>
    intro s hs
    rw [hardChunkAux]
    by_cases h : n < s.length
    · rw [if_pos h]
      have : (s.drop (n - 3)).length ≤ fuel := by
        simp only [List.length_drop]; omega
      exact ih _ this
    · rw [if_neg h]
      show s.length ≤ n
      omega

/-- Invariant carried through the chunking loops: all emitted chunks fit in
`n + 1` characters and the accumulator fits in `n`. -/
def ChunkInv (n : ℕ) (st : SplitState) : Prop :=
  (∀ c ∈ st.slides, c.length ≤ n + 1) ∧ st.current.length ≤ n

theorem processSentence_inv {n : ℕ} (hn : 4 ≤ n) {st : SplitState} {s : List Char}
    (h : ChunkInv n st) : ChunkInv n (processSentence n st s) := by
  obtain ⟨hs, hc⟩ := h
  rw [processSentence]
  by_cases hfit : st.current.length + s.length + 2 ≤ n
  · rw [if_pos hfit]
    refine ⟨hs, ?_⟩
    simp only [List.length_append]
    by_cases he : st.current.isEmpty <;> simp [he] <;> omega
  · rw [if_neg hfit]
    have hst1 : ∀ c ∈ (if st.current.isEmpty then st
        else { slides := st.slides ++ [st.current ++ (if endsWithDot st.current then [] else ['.'])]
               current := ([] : List Char) } : SplitState).slides, c.length ≤ n + 1 := by
      by_cases he : st.current.isEmpty
      · simpa [he] using hs
      · intro c hmem
        simp only [if_neg he, List.mem_append, List.mem_singleton] at hmem
        rcases hmem with hmem | rfl
        · exact hs c hmem
        · simp only [List.length_append]
          by_cases hd : endsWithDot st.current <;> simp [hd] <;> omega
    have hst1c : (if st.current.isEmpty then st
        else { slides := st.slides ++ [st.current ++ (if endsWithDot st.current then [] else ['.'])]
               current := ([] : List Char) } : SplitState).current.length ≤ n := by
      by_cases he : st.current.isEmpty
      · simpa [he] using hc
      · simp [he]
    by_cases hlong : n < s.length
    · rw [if_pos hlong]
      constructor
      · intro c hmem
        simp only [List.mem_append] at hmem
        rcases hmem with hmem | hmem
        · exact hst1 c hmem
        · have := hardChunkAux_chunk_length (by omega : 3 ≤ n) s.length s c hmem
          omega
      · have hrem : (hardChunk n s).2.length ≤ n :=
          hardChunkAux_rem_length hn s.length s le_rfl
        by_cases he2 : (hardChunk n s).2.isEmpty
        · rw [if_pos he2]; exact hst1c
        · rw [if_neg he2]; exact hrem
    · rw [if_neg hlong]
      exact ⟨hst1, by simpa using Nat.le_of_not_lt hlong⟩

theorem processParagraph_inv {n : ℕ} (hn : 4 ≤ n) {st : SplitState} {p : List Char}
    (h : ChunkInv n st) : ChunkInv n (processParagraph n st p) := by
  obtain ⟨hs, hc⟩ := h
  rw [processParagraph]
  by_cases hfit : st.current.length + p.length + 2 ≤ n
  · rw [if_pos hfit]
    refine ⟨hs, ?_⟩
    simp only [List.length_append]
    by_cases he : st.current.isEmpty <;> simp [he] <;> omega
  · rw [if_neg hfit]
    have hst1 : ChunkInv n (if st.current.isEmpty then st
        else { slides := st.slides ++ [st.current], current := ([] : List Char) } : SplitState) := by
      by_cases he : st.current.isEmpty
      · exact ⟨by simpa [he] using hs, by simpa [he] using hc⟩
      · refine ⟨?_, by simp [he]⟩
        intro c hmem
        simp only [if_neg he, List.mem_append, List.mem_singleton] at hmem
        rcases hmem with hmem | rfl
        · exact hs c hmem
        · omega
    by_cases hlong : n < p.length
    · rw [if_pos hlong]
      have : ∀ (l : List (List Char)) (st' : SplitState),
          ChunkInv n st' → ChunkInv n (l.foldl (processSentence n) st') := by
        intro l
        induction l with
        | nil => intro st' h'; simpa using h'
        | cons a t ih => intro st' h'; exact ih _ (processSentence_inv hn h')
      exact this _ _ hst1
    · rw [if_neg hlong]
      exact ⟨hst1.1, by simpa using Nat.le_of_not_lt hlong⟩

/-! ## Claims C2 and C3 -/

/-- Claim C2 (amended): `splitTextForSlides text n` returns `[text]` whenever
`text.length ≤ n` (the short-circuit at the top of the function).  The
converse direction of the original claim fails, see
`splitTextForSlides_single_despite_long`. -/
theorem splitTextForSlides_of_le (text : List Char) (n : ℕ) (h : text.length ≤ n) :
    splitTextForSlides text n = [text] := by
  rw [splitTextForSlides, if_pos h]

/-- Witness for `splitTextForSlides_of_le` at a concrete input. -/
theorem splitTextForSlides_of_le_witness :
    (chars "ok").length ≤ 800 ∧ splitTextForSlides (chars "ok") 800 = [chars "ok"] :=
  ⟨by decide, splitTextForSlides_of_le (chars "ok") 800 (by decide)⟩

/-- Claim C2, counterexample: for `text = "\n\n"` and budget `n = 1` the text
is longer than the budget, yet the function still returns `[text]` — the
paragraph split yields only empty paragraphs, the accumulating chunk stays
empty, no chunk is ever emitted, and the final fallback returns the original
text as a single element.  This refutes the only-if direction of the claim. -/
theorem splitTextForSlides_single_despite_long :
    splitTextForSlides (chars "\n\n") 1 = [chars "\n\n"] ∧ 1 < (chars "\n\n").length := by
  constructor
  · decide
  · decide

/-- Claim C3 (amended): for budgets `n ≥ 4`, either the zero-chunk fallback
returns `[text]` unsplit, or every returned chunk has length at most `n + 1`.
The bound `n` of the original claim is exceeded (by exactly one character)
when a sentence-boundary chunk is closed and gains an appended `'.'`; chunks
produced by the hard-chunking loop (ending in `"..."`) have length at most
`n`, not always exactly `n`.  (For `n ≤ 3` the hard-chunking loop of the
source does not terminate.) -/
theorem splitTextForSlides_chunk_bound (text : List Char) (n : ℕ) (hn : 4 ≤ n) :
    splitTextForSlides text n = [text] ∨
      ∀ c ∈ splitTextForSlides text n, c.length ≤ n + 1 := by
  rw [splitTextForSlides]
  by_cases h : text.length ≤ n
  · rw [if_pos h]; left; rfl
  · rw [if_neg h]
    have hinv : ChunkInv n ((splitOn2 '\n' '\n' text).foldl (processParagraph n) ⟨[], []⟩) := by
      have hstep : ∀ (l : List (List Char)) (st : SplitState),
          ChunkInv n st → ChunkInv n (l.foldl (processParagraph n) st) := by
        intro l
        induction l with
        | nil => intro st h'; simpa using h'
        | cons a t ih => intro st h'; exact ih _ (processParagraph_inv hn h')
      exact hstep _ _ ⟨by simp, by simp⟩
    set st := (splitOn2 '\n' '\n' text).foldl (processParagraph n) (⟨[], []⟩ : SplitState) with hst
    by_cases he : (st.slides ++ (if st.current.isEmpty then [] else [st.current])).isEmpty
    · rw [if_pos he]; left; rfl
    · rw [if_neg he]; right
      intro c hmem
      rcases List.mem_append.mp hmem with hmem | hmem
      · exact hinv.1 c hmem
      · have : c = st.current := by
          by_cases hcur : st.current.isEmpty
          · rw [if_pos hcur] at hmem; simp at hmem
          · rw [if_neg hcur] at hmem; simpa using hmem
        subst this
        have := hinv.2
        omega

/-- Witness for `splitTextForSlides_chunk_bound` at a concrete input. -/
theorem splitTextForSlides_chunk_bound_witness :
    4 ≤ 5 ∧ (splitTextForSlides (chars "abcde. x") 5 = [chars "abcde. x"] ∨
      ∀ c ∈ splitTextForSlides (chars "abcde. x") 5, c.length ≤ 5 + 1) :=
  ⟨by decide, splitTextForSlides_chunk_bound (chars "abcde. x") 5 (by decide)⟩

/-- Claim C3, counterexample: with budget `n = 5` the text `"abcde. x"`
splits into the chunks `"abcde."` and `"x"`.  The first chunk has length
`6 > n`, it is not the final chunk, and it does not end in `"..."` (it is a
sentence-boundary chunk whose closing appended a `'.'`), so it falls under no
exception of the claim. -/
theorem splitTextForSlides_chunk_exceeds :
    splitTextForSlides (chars "abcde. x") 5 = [chars "abcde.", chars "x"] ∧
      5 < (chars "abcde.").length ∧
      ¬ (chars "...").isSuffixOf (chars "abcde.") := by
  refine ⟨by decide, by decide, by decide⟩

/-! ## Lemmas about calculateOptimalFontSize -/

/-- Sizes visited by the descending phase-1 loop stay in `[mn, dflt]` and are
of the form `dflt - 2 * j`. -/
theorem mem_phase1Sizes {mn dflt f : ℚ} (hf : f ∈ phase1Sizes mn dflt) :
    mn ≤ f ∧ f ≤ dflt ∧ ∃ j : ℕ, f = dflt - 2 * j := by
  rw [phase1Sizes] at hf
  obtain ⟨j, hj, hfe⟩ := List.mem_map.mp hf
  rw [List.mem_range] at hj
  subst hfe
  refine ⟨?_, ?_, ⟨j, rfl⟩⟩
  · rw [downCount] at hj
    split at hj
    · omega
    · rename_i hdm
      have hnn : (0 : ℚ) ≤ (dflt - mn) / 2 := by
        have : mn ≤ dflt := le_of_not_lt hdm
        linarith
      have hfl : (0 : ℤ) ≤ ⌊(dflt - mn) / 2⌋ := Int.floor_nonneg.mpr hnn
      have hj' : (j : ℤ) ≤ ⌊(dflt - mn) / 2⌋ := by omega
      have hq : (j : ℚ) ≤ (dflt - mn) / 2 := by
        have h := Int.le_floor.mp hj'
        push_cast at h
        exact h
      linarith
  · have : (0 : ℚ) ≤ 2 * (j : ℚ) := by positivity
    linarith

/-- Sizes visited by the ascending phase-2 loop are at most `mx` and are of
the form `dflt + 2 + 2 * j`. -/
theorem mem_phase2Sizes {mx dflt f : ℚ} (hf : f ∈ phase2Sizes mx dflt) :
    f ≤ mx ∧ ∃ j : ℕ, f = dflt + 2 + 2 * j := by
  rw [phase2Sizes] at hf
  obtain ⟨j, hj, hfe⟩ := List.mem_map.mp hf
  rw [List.mem_range] at hj
  subst hfe
  refine ⟨?_, ⟨j, rfl⟩⟩
  rw [upCount] at hj
  split at hj
  · omega
  · rename_i hdm
    have hnn : (0 : ℚ) ≤ (mx - (dflt + 2)) / 2 := by
      have : dflt + 2 ≤ mx := le_of_not_lt hdm
      linarith
    have hfl : (0 : ℤ) ≤ ⌊(mx - (dflt + 2)) / 2⌋ := Int.floor_nonneg.mpr hnn
    have hj' : (j : ℤ) ≤ ⌊(mx - (dflt + 2)) / 2⌋ := by omega
    have hq : (j : ℚ) ≤ (mx - (dflt + 2)) / 2 := by
      have h := Int.le_floor.mp hj'
      push_cast at h
      exact h
    linarith

/-- The phase-2 result `dflt + 2 * (length of the fitting prefix)` never
exceeds `mx` when `dflt ≤ mx`. -/
theorem phase2_result_le {mx dflt : ℚ} (fits : ℚ → Bool) (hd : dflt ≤ mx) :
    dflt + 2 * (((phase2Sizes mx dflt).takeWhile fits).length : ℚ) ≤ mx := by
  set k := ((phase2Sizes mx dflt).takeWhile fits).length with hk
  have hkle : k ≤ (phase2Sizes mx dflt).length :=
    ((phase2Sizes mx dflt).takeWhile_sublist fits).length_le
  have hlen : (phase2Sizes mx dflt).length = upCount mx dflt := by
    rw [phase2Sizes, List.length_map, List.length_range]
  rcases Nat.eq_zero_or_pos k with h0 | hpos
  · rw [h0]
    push_cast
    linarith
  · have hlt : k - 1 < upCount mx dflt := by omega
    have hmem : dflt + 2 + 2 * ((k - 1 : ℕ) : ℚ) ∈ phase2Sizes mx dflt := by
      rw [phase2Sizes]
      exact List.mem_map.mpr ⟨k - 1, List.mem_range.mpr hlt, rfl⟩
    have hle := (mem_phase2Sizes hmem).1
    have hcast : ((k - 1 : ℕ) : ℚ) = (k : ℚ) - 1 := by
      push_cast [hpos]
      ring
    rw [hcast] at hle
    linarith

/-- The phase-2 result is at least `dflt`. -/
theorem phase2_result_ge {mx dflt : ℚ} (fits : ℚ → Bool) :
    dflt ≤ dflt + 2 * (((phase2Sizes mx dflt).takeWhile fits).length : ℚ) := by
  have : (0 : ℚ) ≤ (((phase2Sizes mx dflt).takeWhile fits).length : ℚ) := by positivity
  linarith

/-! ## Claims C4, C5 and C10 -/

/-- Claim C4: for every text, box width, box height and every font range with
`min ≤ default ≤ max`, the result of `calculateOptimalFontSize` lies in the
closed interval `[min, max]`. -/
theorem calculateOptimalFontSize_bounds (text : List Char) (cw ch : ℚ)
    (r : FontSizeRange) (h1 : r.min ≤ r.default) (h2 : r.default ≤ r.max) :
    r.min ≤ calculateOptimalFontSize text cw ch r ∧
      calculateOptimalFontSize text cw ch r ≤ r.max := by
  rcases hfind : (phase1Sizes r.min r.default).find? (fitsBox text cw ch) with _ | f
  · have hd : calculateOptimalFontSize text cw ch r =
        r.default + 2 * (((phase2Sizes r.max r.default).takeWhile
          (fitsBox text cw ch)).length : ℚ) := by
      rw [calculateOptimalFontSize]
      simp only [hfind, Option.getD_none, eq_self_iff_true, if_true]
    rw [hd]
    exact ⟨le_trans h1 (phase2_result_ge _), phase2_result_le _ h2⟩
  · have hmem := List.mem_of_find?_eq_some hfind
    obtain ⟨hgef, hled, _⟩ := mem_phase1Sizes hmem
    by_cases hfd : f = r.default
    · have hd : calculateOptimalFontSize text cw ch r =
          r.default + 2 * (((phase2Sizes r.max r.default).takeWhile
            (fitsBox text cw ch)).length : ℚ) := by
        rw [calculateOptimalFontSize]
        simp only [hfind, Option.getD_some, if_pos hfd]
      rw [hd]
      exact ⟨le_trans h1 (phase2_result_ge _), phase2_result_le _ h2⟩
    · have hd : calculateOptimalFontSize text cw ch r = f := by
        rw [calculateOptimalFontSize]
        simp only [hfind, Option.getD_some, if_neg hfd]
      rw [hd]
      exact ⟨hgef, le_trans hled h2⟩

/-- Witness for `calculateOptimalFontSize_bounds` at a concrete input. -/
theorem calculateOptimalFontSize_bounds_witness :
    (12 : ℚ) ≤ 18 ∧ (18 : ℚ) ≤ 24 ∧
      (12 ≤ calculateOptimalFontSize (chars "short") 620 340 ⟨12, 24, 18⟩ ∧
        calculateOptimalFontSize (chars "short") 620 340 ⟨12, 24, 18⟩ ≤ 24) :=
  ⟨by norm_num, by norm_num,
    calculateOptimalFontSize_bounds (chars "short") 620 340 ⟨12, 24, 18⟩
      (by norm_num) (by norm_num)⟩

/-- Claim C10: under `min ≤ default ≤ max`, the chosen font size is always of
the form `default + 2 * j` or `default - 2 * j` for a natural `j` (both loops
step by 2 from the default), so it has the same parity as the default and an
endpoint of the range with the opposite parity is never returned. -/
theorem calculateOptimalFontSize_step_form (text : List Char) (cw ch : ℚ)
    (r : FontSizeRange) (h1 : r.min ≤ r.default) (h2 : r.default ≤ r.max) :
    ∃ j : ℕ, calculateOptimalFontSize text cw ch r = r.default + 2 * j ∨
      calculateOptimalFontSize text cw ch r = r.default - 2 * j := by
  rcases hfind : (phase1Sizes r.min r.default).find? (fitsBox text cw ch) with _ | f
  · refine ⟨((phase2Sizes r.max r.default).takeWhile (fitsBox text cw ch)).length, Or.inl ?_⟩
    rw [calculateOptimalFontSize]
    simp only [hfind, Option.getD_none, eq_self_iff_true, if_true]
  · have hmem := List.mem_of_find?_eq_some hfind
    obtain ⟨_, _, j, hj⟩ := mem_phase1Sizes hmem
    by_cases hfd : f = r.default
    · refine ⟨((phase2Sizes r.max r.default).takeWhile (fitsBox text cw ch)).length, Or.inl ?_⟩
      rw [calculateOptimalFontSize]
      simp only [hfind, Option.getD_some, if_pos hfd]
    · refine ⟨j, Or.inr ?_⟩
      rw [calculateOptimalFontSize]
      simp only [hfind, Option.getD_some, if_neg hfd]
      exact hj

/-- Witness for `calculateOptimalFontSize_step_form` at a concrete input. -/
theorem calculateOptimalFontSize_step_form_witness :
    (12 : ℚ) ≤ 18 ∧ (18 : ℚ) ≤ 24 ∧
      (∃ j : ℕ, calculateOptimalFontSize (chars "short") 620 340 ⟨12, 24, 18⟩ = 18 + 2 * j ∨
        calculateOptimalFontSize (chars "short") 620 340 ⟨12, 24, 18⟩ = 18 - 2 * j) :=
  ⟨by norm_num, by norm_num,
    calculateOptimalFontSize_step_form (chars "short") 620 340 ⟨12, 24, 18⟩
      (by norm_num) (by norm_num)⟩

/-! ## Claim C5: the fit scenario from the specification -/

/-- The fitting test specialised to the 5-character single-line text
`"short"`: width `5 * (f * 0.6)`, height `1 * (f * 1.2)`. -/
theorem fitsBox_short (f : ℚ) :
    fitsBox (chars "short") 620 340 f =
      (decide ((5 : ℚ) * (f * 0.6) ≤ 620) && decide ((1 : ℚ) * (f * 1.2) ≤ 340)) := by
  have h5 : List.foldl max 0 (List.map List.length (splitOn1 '\n' (chars "short"))) = 5 := by
    decide
  have hlen : (splitOn1 '\n' (chars "short")).length = 1 := by decide
  simp only [fitsBox, estimateTextDimensions, h5, hlen]
  norm_num

theorem downCount_12_18 : downCount 12 18 = 4 := by
  rw [downCount, if_neg (by norm_num : ¬ (18 : ℚ) < 12)]
  norm_num
  rfl

theorem phase1Sizes_12_18 : phase1Sizes 12 18 = [18, 16, 14, 12] := by
  rw [phase1Sizes, downCount_12_18]
  norm_num [List.range_succ]

theorem upCount_24_18 : upCount 24 18 = 3 := by
  rw [upCount, if_neg (by norm_num : ¬ (24 : ℚ) < 18 + 2)]
  norm_num
  rfl

theorem phase2Sizes_24_18 : phase2Sizes 24 18 = [20, 22, 24] := by
  rw [phase2Sizes, upCount_24_18]
  norm_num [List.range_succ]

/-- Evaluation of the specification scenario: `"short"` fits at the default
size 18, so phase 2 grows the size through 20 and 22 up to the maximum 24,
which still fits, and 24 is returned. -/
theorem calcOptimal_short :
    calculateOptimalFontSize (chars "short") 620 340 ⟨12, 24, 18⟩ = 24 := by
  have hf18 : fitsBox (chars "short") 620 340 18 = true := by rw [fitsBox_short]; norm_num
  have hf20 : fitsBox (chars "short") 620 340 20 = true := by rw [fitsBox_short]; norm_num
  have hf22 : fitsBox (chars "short") 620 340 22 = true := by rw [fitsBox_short]; norm_num
  have hf24 : fitsBox (chars "short") 620 340 24 = true := by rw [fitsBox_short]; norm_num
  have hfind : (phase1Sizes 12 18).find? (fitsBox (chars "short") 620 340) = some 18 := by
    rw [phase1Sizes_12_18]
    rw [List.find?_cons_of_pos _ hf18]
  have htake : (phase2Sizes 24 18).takeWhile (fitsBox (chars "short") 620 340) = [20, 22, 24] := by
    rw [phase2Sizes_24_18]
    rw [List.takeWhile_cons_of_pos hf20, List.takeWhile_cons_of_pos hf22,
      List.takeWhile_cons_of_pos hf24]
    rfl
  simp only [calculateOptimalFontSize]
  rw [hfind]
  simp only [Option.getD_some, eq_self_iff_true, if_true]
  rw [htake]
  norm_num

/-- Claim C5 (amended): `fit("short", 620, 340, {min:12, max:24, default:18})`
returns 24, not 18: the text fits at the default 18, so phase 2 grows the
size by 2 while it keeps fitting and accepts 20, 22 and 24. -/
theorem calculateOptimalFontSize_scenario :
    calculateOptimalFontSize (chars "short") 620 340 ⟨12, 24, 18⟩ = 24 :=
  calcOptimal_short

/-- Claim C5, counterexample: the claimed return value 18 is wrong — the
function returns 24 on this input. -/
theorem calculateOptimalFontSize_scenario_ne :
    calculateOptimalFontSize (chars "short") 620 340 ⟨12, 24, 18⟩ ≠ 18 := by
  rw [calcOptimal_short]
  norm_num

/-! ## markdownParser.ts: lists and tables -/

/-- A parsed list item `{ text, level, isNumbered }`. -/
structure ParsedListItem where
  text : List Char
  level : ℕ
  isNumbered : Bool
deriving DecidableEq

/-- A parsed table `{ headers, rows }`. -/
structure ParsedTable where
  headers : List (List Char)
  rows : List (List (List Char))
deriving DecidableEq

/-- `markdown.split('\n').filter((line) => line.trim())`: the non-blank lines,
shared by the list and table structurers. -/
def nonBlankLines (markdown : List Char) : List (List Char) :=
  (splitOn1 '\n' markdown).filter (fun l => !(jsTrim l).isEmpty)

/-- The `\s+(.+)` tail shared by the bullet and numbered-item regexes, applied
to the text after the marker: requires at least one whitespace character; the
capture is the rest after the greedy whitespace run, except that when the
whole tail is whitespace the regex engine backtracks one character so that
`(.+)` can match it (lines here contain no newline, which `.` cannot match). -/
def matchSpacePlusRest (rest : List Char) : Option (List Char) :=
  let run := rest.takeWhile isSpaceJS
  if run.isEmpty then none
  else if run.length < rest.length then some (rest.drop run.length)
  else if 2 ≤ rest.length then some (rest.drop (rest.length - 1))
  else none

/-- The bullet-item regex `^[-*+]\s+(.+)` of `parseMarkdownList`; returns the
captured item text. -/
def bulletMatch (l : List Char) : Option (List Char) :=
  match l with
  | c :: rest => if c = '-' ∨ c = '*' ∨ c = '+' then matchSpacePlusRest rest else none
  | [] => none

/-- The numbered-item regex `^(\d+)\.\s+(.+)` of `parseMarkdownList`; returns
the captured item text (the digit capture is unused by the caller). -/
def numberMatch (l : List Char) : Option (List Char) :=
  let ds := l.takeWhile Char.isDigit
  if ds.isEmpty then none
  else
    match l.drop ds.length with
    | '.' :: rest => matchSpacePlusRest rest
    | _ => none

/-- One iteration of the line loop of `parseMarkdownList`: leading whitespace
count from `line.length - line.trimStart().length`, level = `⌊leading / 2⌋`,
then bullet, numbered or verbatim plain item.  (The `if (!trimmed) continue`
of the source is dead code: the lines were already filtered to be
non-blank.) -/
def parseListLine (line : List Char) : ParsedListItem :=
  let trimmed := jsTrim line
  let leadingSpaces := line.length - (jsTrimStart line).length
  let level := leadingSpaces / 2
  match bulletMatch trimmed with
  | some t => ⟨t, level, false⟩
  | none =>
    match numberMatch trimmed with
    | some t => ⟨t, level, true⟩
    | none => ⟨trimmed, level, false⟩

/-- `parseMarkdownList` from markdownParser.ts. -/
def parseMarkdownList (markdown : List Char) : List ParsedListItem :=
  (nonBlankLines markdown).map parseListLine

/-- Cell splitting used for header and data rows of `parseMarkdownTable`:
split on `'|'`, trim each cell, drop empty cells. -/
def splitCells (l : List Char) : List (List Char) :=
  ((splitOn1 '|' l).map jsTrim).filter (fun c => !c.isEmpty)

/-- The separator-line regex `^\|?[\s-:|]+\|?$` of `parseMarkdownTable`: it
matches exactly the nonempty strings made only of whitespace, `'-'`, `':'`
and `'|'` (the optional pipes are subsumed by the character class). -/
def sepLineMatch (l : List Char) : Bool :=
  !l.isEmpty && l.all (fun c => isSpaceJS c || c == '-' || c == ':' || c == '|')

/-- Pad a cell list with empty cells up to the header count, then truncate to
the header count (`while (cells.length < headers.length) cells.push('');
rows.push(cells.slice(0, headers.length))`). -/
def padTruncRow (k : ℕ) (cells : List (List Char)) : List (List Char) :=
  (cells ++ List.replicate (k - cells.length) []).take k

/-- One iteration of the data-row loop of `parseMarkdownTable`: skip lines
without a `'|'`, skip lines whose split yields no nonempty cell, otherwise
append the padded-and-truncated row. -/
def tableRowStep (k : ℕ) (rows : List (List (List Char))) (line : List Char) :
    List (List (List Char)) :=
  let rowLine := jsTrim line
  if ¬ rowLine.contains '|' then rows
  else
    let cells := splitCells rowLine
    if 0 < cells.length then rows ++ [padTruncRow k cells] else rows

/-- `parseMarkdownTable` from markdownParser.ts. -/
def parseMarkdownTable (markdown : List Char) : Option ParsedTable :=
  let lines := nonBlankLines markdown
  if lines.length < 2 then none
  else
    let headerLine := jsTrim (lines.getD 0 [])
    let separatorLine := jsTrim (lines.getD 1 [])
    if ¬ headerLine.contains '|' ∨ ¬ separatorLine.contains '|' then none
    else
      let headers := splitCells headerLine
      if ¬ sepLineMatch separatorLine then none
      else some ⟨headers, (lines.drop 2).foldl (tableRowStep headers.length) []⟩

/-! ## Claims C6, C7, C8: the table structurer -/

/-- Unfolding of `parseMarkdownTable` into its decision chain. -/
theorem parseMarkdownTable_eq (md : List Char) :
    parseMarkdownTable md =
      if (nonBlankLines md).length < 2 then none
      else if ¬ (jsTrim ((nonBlankLines md).getD 0 [])).contains '|' ∨
          ¬ (jsTrim ((nonBlankLines md).getD 1 [])).contains '|' then none
      else if ¬ sepLineMatch (jsTrim ((nonBlankLines md).getD 1 [])) then none
      else some ⟨splitCells (jsTrim ((nonBlankLines md).getD 0 [])),
        ((nonBlankLines md).drop 2).foldl
          (tableRowStep (splitCells (jsTrim ((nonBlankLines md).getD 0 []))).length) []⟩ :=
  rfl

theorem padTruncRow_length (k : ℕ) (cells : List (List Char)) :
    (padTruncRow k cells).length = k := by
  rw [padTruncRow, List.length_take, List.length_append, List.length_replicate]
  omega

/-- Every row accumulated by the data-row loop has exactly `k` cells. -/
theorem tableRowStep_foldl_width (k : ℕ) :
    ∀ (l : List (List Char)) (acc : List (List (List Char))),
      (∀ r ∈ acc, r.length = k) → ∀ r ∈ l.foldl (tableRowStep k) acc, r.length = k := by
  intro l
  induction l with
  | nil => intro acc hacc; simpa using hacc
  | cons a tl ih =>
    intro acc hacc
    rw [List.foldl_cons]
    apply ih
    intro r hr
    rw [tableRowStep] at hr
    by_cases hc : (jsTrim a).contains '|'
    · rw [if_neg (not_not_intro hc)] at hr
      by_cases hlen : 0 < (splitCells (jsTrim a)).length
      · rw [if_pos hlen] at hr
        rcases List.mem_append.mp hr with hr | hr
        · exact hacc r hr
        · rw [List.mem_singleton] at hr
          subst hr
          exact padTruncRow_length _ _
      · rw [if_neg hlen] at hr
        exact hacc r hr
    · rw [if_pos hc] at hr
      exact hacc r hr

/-- Claim C6: whenever `parseMarkdownTable` succeeds, every row of the
resulting table has exactly `headers.length` cells — short rows are
right-padded with empty cells and long rows are truncated. -/
theorem parseMarkdownTable_row_width (md : List Char) (t : ParsedTable)
    (h : parseMarkdownTable md = some t) :
    ∀ r ∈ t.rows, r.length = t.headers.length := by
  rw [parseMarkdownTable_eq] at h
  by_cases h1 : (nonBlankLines md).length < 2
  · rw [if_pos h1] at h; exact absurd h (by simp)
  · rw [if_neg h1] at h
    by_cases h2 : ¬ (jsTrim ((nonBlankLines md).getD 0 [])).contains '|' ∨
        ¬ (jsTrim ((nonBlankLines md).getD 1 [])).contains '|'
    · rw [if_pos h2] at h; exact absurd h (by simp)
    · rw [if_neg h2] at h
      by_cases h3 : ¬ sepLineMatch (jsTrim ((nonBlankLines md).getD 1 []))
      · rw [if_pos h3] at h; exact absurd h (by simp)
      · rw [if_neg h3] at h
        rw [Option.some_inj] at h
        subst h
        exact tableRowStep_foldl_width _ _ [] (by simp)

/-- Witness for `parseMarkdownTable_row_width`: a table with one over-long
data row (truncated) and one pipe-free line (skipped). -/
theorem parseMarkdownTable_row_width_witness :
    parseMarkdownTable (chars "x|y\n-|-\n1|2|3\n9") =
        some ⟨[chars "x", chars "y"], [[chars "1", chars "2"]]⟩ ∧
      ∀ r ∈ (⟨[chars "x", chars "y"], [[chars "1", chars "2"]]⟩ : ParsedTable).rows,
        r.length = (⟨[chars "x", chars "y"], [[chars "1", chars "2"]]⟩ : ParsedTable).headers.length :=
  ⟨by decide,
    parseMarkdownTable_row_width (chars "x|y\n-|-\n1|2|3\n9")
      ⟨[chars "x", chars "y"], [[chars "1", chars "2"]]⟩ (by decide)⟩

/-- Claim C7 (amended): `parseMarkdownTable` returns the failure sentinel if
and only if there are fewer than two non-blank lines, or the first or the
second non-blank line contains no `'|'` character, or the second non-blank
line fails the separator pattern `^\|?[\s-:|]+\|?$`.  The original claim
omitted the two pipe-containment checks, which run before the separator
pattern.  The function is total (it never throws). -/
theorem parseMarkdownTable_none_iff (md : List Char) :
    parseMarkdownTable md = none ↔
      ((nonBlankLines md).length < 2 ∨
        ¬ (jsTrim ((nonBlankLines md).getD 0 [])).contains '|' ∨
        ¬ (jsTrim ((nonBlankLines md).getD 1 [])).contains '|' ∨
        ¬ sepLineMatch (jsTrim ((nonBlankLines md).getD 1 []))) := by
  rw [parseMarkdownTable_eq]
  by_cases h1 : (nonBlankLines md).length < 2
  · rw [if_pos h1]
    exact iff_of_true rfl (Or.inl h1)
  · rw [if_neg h1]
    by_cases h2 : ¬ (jsTrim ((nonBlankLines md).getD 0 [])).contains '|' ∨
        ¬ (jsTrim ((nonBlankLines md).getD 1 [])).contains '|'
    · rw [if_pos h2]
      exact iff_of_true rfl (by tauto)
    · rw [if_neg h2]
      by_cases h3 : ¬ sepLineMatch (jsTrim ((nonBlankLines md).getD 1 []))
      · rw [if_pos h3]
        exact iff_of_true rfl (by tauto)
      · rw [if_neg h3]
        refine iff_of_false (by simp) ?_
        rintro (h | h | h | h) <;> tauto

/-- Claim C7, counterexample: for `"abc\n---|---"` there are two non-blank
lines and the second matches the separator pattern, so the claimed
equivalence predicts success; the code still returns the failure sentinel
because the header line contains no `'|'`. -/
theorem parseMarkdownTable_separator_mismatch :
    parseMarkdownTable (chars "abc\n---|---") = none ∧
      ¬ (nonBlankLines (chars "abc\n---|---")).length < 2 ∧
      sepLineMatch (jsTrim ((nonBlankLines (chars "abc\n---|---")).getD 1 [])) = true := by
  refine ⟨by decide, by decide, by decide⟩

/-- Length bookkeeping for the data-row loop: one row is appended for exactly
the lines that contain a `'|'` and split into at least one nonempty cell. -/
theorem tableRowStep_foldl_count (k : ℕ) :
    ∀ (l : List (List Char)) (acc : List (List (List Char))),
      (l.foldl (tableRowStep k) acc).length =
        acc.length + (l.filter (fun line => (jsTrim line).contains '|' &&
          !(splitCells (jsTrim line)).isEmpty)).length := by
  intro l
  induction l with
  | nil => intro acc; simp
  | cons a tl ih =>
    intro acc
    rw [List.foldl_cons, List.filter_cons]
    by_cases hc : (jsTrim a).contains '|'
    · by_cases hlen : 0 < (splitCells (jsTrim a)).length
      · have hne : (splitCells (jsTrim a)).isEmpty = false := by
          rcases he : splitCells (jsTrim a) with _ | ⟨x, xs⟩
          · rw [he] at hlen; simp at hlen
          · rfl
        have hpred : ((jsTrim a).contains '|' && !(splitCells (jsTrim a)).isEmpty) = true := by
          rw [hc, hne]
          rfl
        have hstep : tableRowStep k acc a = acc ++ [padTruncRow k (splitCells (jsTrim a))] := by
          rw [tableRowStep, if_neg (not_not_intro hc), if_pos hlen]
        rw [hstep, ih, if_pos hpred]
        rw [List.length_append, List.length_cons]
        simp only [List.length_cons, List.length_nil]
        omega
      · have hemp : (splitCells (jsTrim a)).isEmpty = true := by
          rcases he : splitCells (jsTrim a) with _ | ⟨x, xs⟩
          · rfl
          · rw [he] at hlen; simp at hlen
        have hpred : ((jsTrim a).contains '|' && !(splitCells (jsTrim a)).isEmpty) = false := by
          rw [hc, hemp]
          rfl
        have hstep : tableRowStep k acc a = acc := by
          rw [tableRowStep, if_neg (not_not_intro hc), if_neg hlen]
        rw [hstep, ih, if_neg (by rw [hpred]; exact Bool.false_ne_true)]
    · have hcb : (jsTrim a).contains '|' = false := by
        rcases hcc : (jsTrim a).contains '|'
        · rfl
        · exact absurd hcc hc
      have hpred : ((jsTrim a).contains '|' && !(splitCells (jsTrim a)).isEmpty) = false := by
        rw [hcb]
        rfl
      have hstep : tableRowStep k acc a = acc := by
        rw [tableRowStep, if_pos hc]
      rw [hstep, ih, if_neg (by rw [hpred]; exact Bool.false_ne_true)]

/-- Claim C8 (amended): when `parseMarkdownTable` succeeds, the number of rows
equals the number of non-blank lines after the separator that contain at
least one `'|'` and split into at least one nonempty cell.  The original
claim counted every pipe-containing line; lines whose cells are all empty
after trimming (for example `"| |"`) are also silently skipped. -/
theorem parseMarkdownTable_row_count (md : List Char) (t : ParsedTable)
    (h : parseMarkdownTable md = some t) :
    t.rows.length = (((nonBlankLines md).drop 2).filter
      (fun line => (jsTrim line).contains '|' &&
        !(splitCells (jsTrim line)).isEmpty)).length := by
  rw [parseMarkdownTable_eq] at h
  by_cases h1 : (nonBlankLines md).length < 2
  · rw [if_pos h1] at h; exact absurd h (by simp)
  · rw [if_neg h1] at h
    by_cases h2 : ¬ (jsTrim ((nonBlankLines md).getD 0 [])).contains '|' ∨
        ¬ (jsTrim ((nonBlankLines md).getD 1 [])).contains '|'
    · rw [if_pos h2] at h; exact absurd h (by simp)
    · rw [if_neg h2] at h
      by_cases h3 : ¬ sepLineMatch (jsTrim ((nonBlankLines md).getD 1 []))
      · rw [if_pos h3] at h; exact absurd h (by simp)
      · rw [if_neg h3] at h
        rw [Option.some_inj] at h
        subst h
        simpa using tableRowStep_foldl_count _ ((nonBlankLines md).drop 2) []

/-- Witness for `parseMarkdownTable_row_count` at a concrete input. -/
theorem parseMarkdownTable_row_count_witness :
    parseMarkdownTable (chars "a|b\n-|-\n1|2\nplain") =
        some ⟨[chars "a", chars "b"], [[chars "1", chars "2"]]⟩ ∧
      (⟨[chars "a", chars "b"], [[chars "1", chars "2"]]⟩ : ParsedTable).rows.length =
        (((nonBlankLines (chars "a|b\n-|-\n1|2\nplain")).drop 2).filter
          (fun line => (jsTrim line).contains '|' &&
            !(splitCells (jsTrim line)).isEmpty)).length :=
  ⟨by decide,
    parseMarkdownTable_row_count (chars "a|b\n-|-\n1|2\nplain")
      ⟨[chars "a", chars "b"], [[chars "1", chars "2"]]⟩ (by decide)⟩

/-- Claim C8, counterexample: the data line `"| |"` contains a `'|'` yet
yields no row (all its cells trim to empty strings and are filtered out), so
the row count 0 differs from the pipe-containing line count 1. -/
theorem parseMarkdownTable_pipe_line_skipped :
    parseMarkdownTable (chars "a|b\n-|-\n| |") = some ⟨[chars "a", chars "b"], []⟩ ∧
      (((nonBlankLines (chars "a|b\n-|-\n| |")).drop 2).filter
        (fun line => (jsTrim line).contains '|')).length = 1 := by
  refine ⟨by decide, by decide⟩

/-! ## Claim C9: the list structurer -/

/-- The level assigned to any line is the leading-whitespace count divided by
two, regardless of which of the three item shapes matches. -/
theorem parseListLine_level (line : List Char) :
    (parseListLine line).level = (line.length - (jsTrimStart line).length) / 2 := by
  rw [parseListLine]
  cases hb : bulletMatch (jsTrim line) with
  | some t => rfl
  | none =>
    cases hn : numberMatch (jsTrim line) with
    | some t => rfl
    | none => rfl

/-- Claim C9: `parseMarkdownList` produces exactly one item per non-blank
line (blank lines are dropped and produce no item), and a line whose leading
whitespace count is `2 * k` yields an item with `level = k`. -/
theorem parseMarkdownList_level (md : List Char) (i k : ℕ)
    (h : i < (nonBlankLines md).length)
    (hk : ((nonBlankLines md).getD i []).length -
      (jsTrimStart ((nonBlankLines md).getD i [])).length = 2 * k) :
    (parseMarkdownList md).length = (nonBlankLines md).length ∧
      ((parseMarkdownList md).getD i ⟨[], 0, false⟩).level = k := by
  refine ⟨by rw [parseMarkdownList, List.length_map], ?_⟩
  rw [parseMarkdownList]
  rw [List.getD_eq_getElem _ _ (by rw [List.length_map]; exact h)]
  rw [List.getElem_map, parseListLine_level]
  rw [List.getD_eq_getElem _ _ h] at hk
  omega

/-- Witness for `parseMarkdownList_level` at the nested-list scenario of the
specification. -/
theorem parseMarkdownList_level_witness :
    (1 < (nonBlankLines (chars "- top\n  - nested")).length ∧
      ((nonBlankLines (chars "- top\n  - nested")).getD 1 []).length -
        (jsTrimStart ((nonBlankLines (chars "- top\n  - nested")).getD 1 [])).length = 2 * 1) ∧
      ((parseMarkdownList (chars "- top\n  - nested")).length =
          (nonBlankLines (chars "- top\n  - nested")).length ∧
        ((parseMarkdownList (chars "- top\n  - nested")).getD 1 ⟨[], 0, false⟩).level = 1) :=
  ⟨⟨by decide, by decide⟩,
    parseMarkdownList_level (chars "- top\n  - nested") 1 1 (by decide) (by decide)⟩

/-! ## markdownParser.ts: the inline formatter (parseMarkdownToFormattedText)

The source scans the markdown with three global regexes, in order
`/\*\*([^*]+)\*\*/g` (bold), `/__([^_]+)__/g` (underline), `/\*([^*]+)\*/g`
(italic), collects the matches of each pattern while rejecting any match that
overlaps an already collected one, sorts the survivors by start offset and
emits alternating plain/styled segments.  A regex match at a position is
deterministic here: the character class run is maximal and backtracking it
cannot help, so matching at a position either consumes
`delimiter ++ run ++ delimiter` or fails, and the engine then retries from
the next position; a successful global match resumes after its end. -/

/-- A styled text segment.  The `fontSize` field of the source interface is
never set by the inline formatter and is omitted. -/
structure FormattedTextSegment where
  text : List Char
  bold : Bool
  italic : Bool
  underline : Bool
deriving DecidableEq

/-- The three span kinds. -/
inductive SpanFormat where
  | bold
  | underline
  | italic
deriving DecidableEq

/-- A collected match: start offset, end offset (`end` in the source; `stop`
here because `end` is reserved), captured inner text, and kind. -/
structure Replacement where
  start : ℕ
  stop : ℕ
  text : List Char
  format : SpanFormat
deriving DecidableEq

/-- Matching `d d ([^d]+) d d` (the bold/underline regex shape) at the start
of `s`: returns the consumed length and the capture. -/
def tryPair (d : Char) : List Char → Option (ℕ × List Char)
  | c1 :: c2 :: rest =>
    if c1 = d ∧ c2 = d then
      let run := rest.takeWhile (fun c => c != d)
      if run.isEmpty then none
      else
        match rest.drop run.length with
        | e1 :: e2 :: _ => if e1 = d ∧ e2 = d then some (run.length + 4, run) else none
        | _ => none
    else none
  | _ => none

/-- Matching `d ([^d]+) d` (the italic regex shape) at the start of `s`. -/
def trySingle (d : Char) : List Char → Option (ℕ × List Char)
  | c1 :: rest =>
    if c1 = d then
      let run := rest.takeWhile (fun c => c != d)
      if run.isEmpty then none
      else
        match rest.drop run.length with
        | e1 :: _ => if e1 = d then some (run.length + 2, run) else none
        | _ => none
    else none
  | _ => none

/-- JavaScript global-regex scanning (`while (regex.exec(markdown))`): try the
matcher at each position; on success record `(start, end, capture)` and resume
at the match end, otherwise advance one character.  Fuelled by the string
length, which suffices because every step consumes at least one character
(matches are never empty). -/
def scanWithAux (tryAt : List Char → Option (ℕ × List Char)) :
    ℕ → List Char → ℕ → List (ℕ × ℕ × List Char)
  | 0, _, _ => []
  | _, [], _ => []
  | fuel + 1, c :: rest, i =>
    match tryAt (c :: rest) with
    | some (len, cap) => (i, i + len, cap) :: scanWithAux tryAt fuel (rest.drop (len - 1)) (i + len)
    | none => scanWithAux tryAt fuel rest (i + 1)

/-- All matches of one pattern over the whole string, with absolute offsets. -/
def scanWith (tryAt : List Char → Option (ℕ × List Char)) (s : List Char) :
    List (ℕ × ℕ × List Char) :=
  scanWithAux tryAt s.length s 0

/-- The matches of the three patterns, in the collection order of the source
(bold, then underline, then italic). -/
def patternMatches (markdown : List Char) : List Replacement :=
  ((scanWith (tryPair '*') markdown).map (fun m => ⟨m.1, m.2.1, m.2.2, SpanFormat.bold⟩)) ++
  ((scanWith (tryPair '_') markdown).map (fun m => ⟨m.1, m.2.1, m.2.2, SpanFormat.underline⟩)) ++
  ((scanWith (trySingle '*') markdown).map (fun m => ⟨m.1, m.2.1, m.2.2, SpanFormat.italic⟩))

/-- The overlap test of the source, verbatim:
`(start >= r.start && start < r.end) || (end > r.start && end <= r.end) ||
(start <= r.start && end >= r.end)`. -/
def overlapsRep (s e : ℕ) (r : Replacement) : Bool :=
  (decide (r.start ≤ s) && decide (s < r.stop)) ||
  (decide (r.start < e) && decide (e ≤ r.stop)) ||
  (decide (s ≤ r.start) && decide (r.stop ≤ e))

/-- One step of the collection loop: keep a match only if it overlaps no
already accepted replacement. -/
def acceptStep (acc : List Replacement) (m : Replacement) : List Replacement :=
  if acc.any (overlapsRep m.start m.stop) then acc else acc ++ [m]

/-- The accepted (mutually non-overlapping) replacements, in collection
order. -/
def acceptedReps (markdown : List Char) : List Replacement :=
  (patternMatches markdown).foldl acceptStep []

/-- `replacements.sort((a, b) => a.start - b.start)`: accepted replacements
sorted by start offset (starts are distinct, so any sort agrees). -/
def sortedReps (markdown : List Char) : List Replacement :=
  (acceptedReps markdown).insertionSort (fun a b => a.start ≤ b.start)

/-- The styled segment emitted for an accepted replacement. -/
def styledSegment (r : Replacement) : FormattedTextSegment :=
  ⟨r.text, r.format = SpanFormat.bold, r.format = SpanFormat.italic,
    r.format = SpanFormat.underline⟩

/-- The segment-building loop of the source: for each replacement in order,
emit the plain text between the previous position and the replacement start
(omitted when empty), then the styled segment; finally emit the remaining
plain text (omitted when empty). -/
def buildSegments (markdown : List Char) : List Replacement → ℕ → List FormattedTextSegment
  | [], textIndex =>
    if ((markdown.drop textIndex) : List Char).isEmpty then []
    else [⟨markdown.drop textIndex, false, false, false⟩]
  | r :: rs, textIndex =>
    (if (((markdown.drop textIndex).take (r.start - textIndex)) : List Char).isEmpty then []
     else [⟨(markdown.drop textIndex).take (r.start - textIndex), false, false, false⟩]) ++
    styledSegment r :: buildSegments markdown rs r.stop

/-- `parseMarkdownToFormattedText` from markdownParser.ts. -/
def parseMarkdownToFormattedText (markdown : List Char) : List FormattedTextSegment :=
  let segments := buildSegments markdown (sortedReps markdown) 0
  if segments.isEmpty then [⟨markdown, false, false, false⟩] else segments

/-- Concatenation of the segment texts, in order. -/
def segmentsText (segments : List FormattedTextSegment) : List Char :=
  (segments.map FormattedTextSegment.text).flatten

/-- The delimiter string of a span kind. -/
def delim : SpanFormat → List Char
  | SpanFormat.bold => ['*', '*']
  | SpanFormat.underline => ['_', '_']
  | SpanFormat.italic => ['*']

/-- The delimiter character of a span kind. -/
def delimChar : SpanFormat → Char
  | SpanFormat.bold => '*'
  | SpanFormat.underline => '_'
  | SpanFormat.italic => '*'

/-- The source string with the delimiters of the given (sorted,
non-overlapping) replacements stripped exactly once: plain gaps are copied
verbatim and each replacement contributes its captured inner text. -/
def stripAccepted (markdown : List Char) : List Replacement → ℕ → List Char
  | [], textIndex => markdown.drop textIndex
  | r :: rs, textIndex =>
    (markdown.drop textIndex).take (r.start - textIndex) ++ r.text ++
      stripAccepted markdown rs r.stop

/-- What it means for a replacement to be a genuine span of the source
string: the text it covers is its capture surrounded by one delimiter pair,
the capture is nonempty and contains no delimiter character, and the span is
nonempty and within bounds. -/
def MatchShape (markdown : List Char) (r : Replacement) : Prop :=
  (markdown.drop r.start).take (r.stop - r.start) = delim r.format ++ r.text ++ delim r.format ∧
  r.text ≠ [] ∧ delimChar r.format ∉ r.text ∧ r.start < r.stop ∧ r.stop ≤ markdown.length

/-! ### Soundness of the matchers -/

theorem tryPair_spec {d : Char} {s : List Char} {len : ℕ} {cap : List Char}
    (h : tryPair d s = some (len, cap)) :
    s.take len = d :: d :: (cap ++ [d, d]) ∧ cap ≠ [] ∧ d ∉ cap ∧
      len = cap.length + 4 ∧ len ≤ s.length := by
  cases s with
  | nil => simp [tryPair] at h
  | cons c1 t =>
    cases t with
    | nil => simp [tryPair] at h
    | cons c2 rest =>
      simp only [tryPair] at h
      split_ifs at h with hd he
      · rcases hdrop : rest.drop (rest.takeWhile (fun c => c != d)).length with _ | ⟨e1, t1⟩ <;>
          rw [hdrop] at h
        · simp at h
        · cases t1 with
          | nil => simp at h
          | cons e2 t2 =>
            dsimp only [] at h
            split_ifs at h with hee
            · have h' := Option.some_inj.mp h
              rw [Prod.mk.injEq] at h'
              obtain ⟨h1, h2⟩ := h'
              subst h1
              subst h2
              set run := rest.takeWhile (fun c => c != d) with hrun
              have hpref : run = rest.take run.length :=
                List.prefix_iff_eq_take.mp (List.takeWhile_prefix _)
              have hlen2 := congrArg List.length hdrop
              rw [List.length_drop] at hlen2
              simp only [List.length_cons] at hlen2
              have hrle := congrArg List.length hpref
              rw [List.length_take] at hrle
              refine ⟨?_, ?_, ?_, rfl, ?_⟩
              · rw [hd.1, hd.2]
                have hsplit : run.length + 4 = (run.length + 2) + 1 + 1 := by omega
                rw [hsplit, List.take_succ_cons, List.take_succ_cons]
                have htake : rest.take (run.length + 2) =
                    rest.take run.length ++ (rest.drop run.length).take 2 := List.take_add _ _ _
                rw [htake, hdrop, ← hpref, hee.1, hee.2]
                rfl
              · intro heq
                rw [heq] at he
                exact he rfl
              · intro hmem
                have := List.mem_takeWhile_imp hmem
                simp at this
              · simp only [List.length_cons]
                omega

theorem trySingle_spec {d : Char} {s : List Char} {len : ℕ} {cap : List Char}
    (h : trySingle d s = some (len, cap)) :
    s.take len = d :: (cap ++ [d]) ∧ cap ≠ [] ∧ d ∉ cap ∧
      len = cap.length + 2 ∧ len ≤ s.length := by
  cases s with
  | nil => simp [trySingle] at h
  | cons c1 rest =>
    simp only [trySingle] at h
    split_ifs at h with hd he
    · rcases hdrop : rest.drop (rest.takeWhile (fun c => c != d)).length with _ | ⟨e1, t1⟩ <;>
        rw [hdrop] at h
      · simp at h
      · dsimp only [] at h
        split_ifs at h with hee
        · have h' := Option.some_inj.mp h
          rw [Prod.mk.injEq] at h'
          obtain ⟨h1, h2⟩ := h'
          subst h1
          subst h2
          set run := rest.takeWhile (fun c => c != d) with hrun
          have hpref : run = rest.take run.length :=
            List.prefix_iff_eq_take.mp (List.takeWhile_prefix _)
          have hlen2 := congrArg List.length hdrop
          rw [List.length_drop] at hlen2
          simp only [List.length_cons] at hlen2
          have hrle := congrArg List.length hpref
          rw [List.length_take] at hrle
          refine ⟨?_, ?_, ?_, rfl, ?_⟩
          · rw [hd]
            have hsplit : run.length + 2 = (run.length + 1) + 1 := by omega
            rw [hsplit, List.take_succ_cons]
            have htake : rest.take (run.length + 1) =
                rest.take run.length ++ (rest.drop run.length).take 1 := List.take_add _ _ _
            rw [htake, hdrop, ← hpref, hee]
            rfl
          · intro heq
            rw [heq] at he
            exact he rfl
          · intro hmem
            have := List.mem_takeWhile_imp hmem
            simp at this
          · simp only [List.length_cons]
            omega



/-- Soundness of the global-regex scanner: every reported match `(st, en, cap)`
lies at or after the scanning offset and is certified by the matcher on the
corresponding suffix of the scanned string. -/
theorem scanWithAux_sound (tryAt : List Char → Option (ℕ × List Char))
    (hpos : ∀ t len cap, tryAt t = some (len, cap) → 1 ≤ len) :
    ∀ (fuel : ℕ) (s : List Char) (i st en : ℕ) (cap : List Char),
      (st, en, cap) ∈ scanWithAux tryAt fuel s i →
      i ≤ st ∧ st ≤ en ∧ tryAt (s.drop (st - i)) = some (en - st, cap) := by
  intro fuel
  induction fuel with
  | zero => intro s i st en cap hm; simp [scanWithAux] at hm
  | succ fuel ih =>
    intro s i st en cap hm
    cases s with
    | nil => simp [scanWithAux] at hm
    | cons c rest =>
      rw [scanWithAux] at hm
      cases htry : tryAt (c :: rest) with
      | some p =>
        obtain ⟨len, cap'⟩ := p
        rw [htry] at hm
        have hlen : 1 ≤ len := hpos _ _ _ htry
        rcases List.mem_cons.mp hm with hm | hm
        · obtain ⟨rfl, rfl, rfl⟩ : st = i ∧ en = i + len ∧ cap = cap' := by
            rw [Prod.mk.injEq, Prod.mk.injEq] at hm
            exact ⟨hm.1, hm.2.1, hm.2.2⟩
          refine ⟨le_rfl, Nat.le_add_right _ _, ?_⟩
          simp only [Nat.sub_self, List.drop_zero, Nat.add_sub_cancel_left]
          exact htry
        · obtain ⟨h1, h2, h3⟩ := ih _ _ _ _ _ hm
          refine ⟨by omega, h2, ?_⟩
          rw [List.drop_drop] at h3
          have hsplit : st - i = (len - 1 + (st - (i + len))) + 1 := by omega
          rw [hsplit, List.drop_succ_cons]
          exact h3
      | none =>
        rw [htry] at hm
        obtain ⟨h1, h2, h3⟩ := ih _ _ _ _ _ hm
        refine ⟨by omega, h2, ?_⟩
        have hsplit : st - i = (st - (i + 1)) + 1 := by omega
        rw [hsplit, List.drop_succ_cons]
        exact h3


/-! ### The accepted replacement set -/

/-- Every collected pattern match is a genuine span of the source string. -/
theorem patternMatches_shape (markdown : List Char) :
    ∀ r ∈ patternMatches markdown, MatchShape markdown r := by
  have hposPair : ∀ (d : Char) t len cap, tryPair d t = some (len, cap) → 1 ≤ len := by
    intro d t len cap h
    have := (tryPair_spec h).2.2.2.1
    omega
  have hposSingle : ∀ (d : Char) t len cap, trySingle d t = some (len, cap) → 1 ≤ len := by
    intro d t len cap h
    have := (trySingle_spec h).2.2.2.1
    omega
  intro r hr
  rw [patternMatches] at hr
  rcases List.mem_append.mp hr with hr' | hr
  · rcases List.mem_append.mp hr' with hr | hr
    · obtain ⟨m, hm, rfl⟩ := List.mem_map.mp hr
      obtain ⟨st, en, cap⟩ := m
      dsimp only [MatchShape]
      obtain ⟨h0, hse, htry⟩ := scanWithAux_sound _ (hposPair '*') _ _ _ _ _ _ hm
      simp only [Nat.sub_zero] at htry
      obtain ⟨htake, hne, hnmem, hlen4, hle⟩ := tryPair_spec htry
      rw [List.length_drop] at hle
      refine ⟨?_, hne, ?_, by omega, by omega⟩
      · rw [htake]
        simp [delim]
      · simpa [delimChar] using hnmem
    · obtain ⟨m, hm, rfl⟩ := List.mem_map.mp hr
      obtain ⟨st, en, cap⟩ := m
      dsimp only [MatchShape]
      obtain ⟨h0, hse, htry⟩ := scanWithAux_sound _ (hposPair '_') _ _ _ _ _ _ hm
      simp only [Nat.sub_zero] at htry
      obtain ⟨htake, hne, hnmem, hlen4, hle⟩ := tryPair_spec htry
      rw [List.length_drop] at hle
      refine ⟨?_, hne, ?_, by omega, by omega⟩
      · rw [htake]
        simp [delim]
      · simpa [delimChar] using hnmem
  · obtain ⟨m, hm, rfl⟩ := List.mem_map.mp hr
    obtain ⟨st, en, cap⟩ := m
    dsimp only [MatchShape]
    obtain ⟨h0, hse, htry⟩ := scanWithAux_sound _ (hposSingle '*') _ _ _ _ _ _ hm
    simp only [Nat.sub_zero] at htry
    obtain ⟨htake, hne, hnmem, hlen2, hle⟩ := trySingle_spec htry
    rw [List.length_drop] at hle
    refine ⟨?_, hne, ?_, by omega, by omega⟩
    · rw [htake]
      simp [delim]
    · simpa [delimChar] using hnmem

/-- Two replacements with disjoint half-open spans. -/
def Disj (a b : Replacement) : Prop := a.stop ≤ b.start ∨ b.stop ≤ a.start

/-- Failing the source's overlap test means the spans are disjoint (for
nonempty spans). -/
theorem not_overlaps_disj {m r : Replacement} (hr : r.start < r.stop) (hm : m.start < m.stop)
    (h : ¬ overlapsRep m.start m.stop r = true) : Disj r m := by
  rw [overlapsRep] at h
  simp only [Bool.or_eq_true, Bool.and_eq_true, decide_eq_true_eq] at h
  rw [Disj]
  omega

/-- Elements of the collection fold come from the accumulator or the input. -/
theorem acceptStep_foldl_mem :
    ∀ (ms acc : List Replacement) (r : Replacement),
      r ∈ ms.foldl acceptStep acc → r ∈ acc ∨ r ∈ ms := by
  intro ms
  induction ms with
  | nil => intro acc r h; exact Or.inl (by simpa using h)
  | cons m tl ih =>
    intro acc r h
    rw [List.foldl_cons] at h
    rcases ih _ r h with h' | h'
    · rw [acceptStep] at h'
      split_ifs at h' with hov
      · exact Or.inl h'
      · rcases List.mem_append.mp h' with h'' | h''
        · exact Or.inl h''
        · rw [List.mem_singleton] at h''
          subst h''
          exact Or.inr (List.mem_cons_self _ _)
    · exact Or.inr (List.mem_cons_of_mem _ h')

/-- The collection fold keeps the accepted replacements pairwise disjoint:
a match is added only when the source's overlap test fails against every
already accepted replacement. -/
theorem acceptStep_foldl_pairwise :
    ∀ (ms acc : List Replacement),
      (∀ x ∈ ms, x.start < x.stop) → (∀ x ∈ acc, x.start < x.stop) →
      acc.Pairwise Disj → (ms.foldl acceptStep acc).Pairwise Disj := by
  intro ms
  induction ms with
  | nil => intro acc _ _ hp; simpa using hp
  | cons m tl ih =>
    intro acc hms hacc hp
    rw [List.foldl_cons]
    have hm := hms m (List.mem_cons_self _ _)
    have htl : ∀ x ∈ tl, x.start < x.stop := fun x hx => hms x (List.mem_cons_of_mem _ hx)
    by_cases hov : acc.any (overlapsRep m.start m.stop)
    · have hstep : acceptStep acc m = acc := by rw [acceptStep, if_pos hov]
      rw [hstep]
      exact ih _ htl hacc hp
    · have hstep : acceptStep acc m = acc ++ [m] := by rw [acceptStep, if_neg hov]
      rw [hstep]
      apply ih _ htl
      · intro x hx
        rcases List.mem_append.mp hx with hx | hx
        · exact hacc x hx
        · rw [List.mem_singleton] at hx
          subst hx
          exact hm
      · rw [List.pairwise_append]
        refine ⟨hp, List.pairwise_singleton _ _, ?_⟩
        intro a ha b hb
        rw [List.mem_singleton] at hb
        rw [hb]
        have hno : ¬ overlapsRep m.start m.stop a = true := by
          intro hcon
          exact hov (List.any_eq_true.mpr ⟨a, ha, hcon⟩)
        exact not_overlaps_disj (hacc a ha) hm hno

theorem acceptedReps_sub (markdown : List Char) :
    ∀ r ∈ acceptedReps markdown, r ∈ patternMatches markdown := by
  intro r hr
  rcases acceptStep_foldl_mem _ [] r hr with h | h
  · simp at h
  · exact h

theorem acceptedReps_pairwise (markdown : List Char) :
    (acceptedReps markdown).Pairwise Disj := by
  apply acceptStep_foldl_pairwise
  · intro x hx
    exact (patternMatches_shape markdown x hx).2.2.2.1
  · intro x hx
    simp at hx
  · exact List.Pairwise.nil


/-! ### Claim C1: segment reconstruction -/

instance : IsTotal Replacement (fun a b => a.start ≤ b.start) :=
  ⟨fun a b => Nat.le_total a.start b.start⟩

instance : IsTrans Replacement (fun a b => a.start ≤ b.start) :=
  ⟨fun _ _ _ h1 h2 => Nat.le_trans h1 h2⟩

theorem sortedReps_mem (markdown : List Char) :
    ∀ r ∈ sortedReps markdown, r ∈ patternMatches markdown := by
  intro r hr
  exact acceptedReps_sub markdown r
    ((List.perm_insertionSort (fun a b : Replacement => a.start ≤ b.start)
      (acceptedReps markdown)).mem_iff.mp hr)

/-- The sorted accepted replacements all describe genuine spans. -/
theorem sortedReps_shape (markdown : List Char) :
    ∀ r ∈ sortedReps markdown, MatchShape markdown r :=
  fun r hr => patternMatches_shape markdown r (sortedReps_mem markdown r hr)

/-- The sorted accepted replacements are strictly ordered: each span ends at
or before the next one starts, so no character position is covered twice. -/
theorem sortedReps_chain (markdown : List Char) :
    List.Chain' (fun a b => a.stop ≤ b.start) (sortedReps markdown) := by
  have hperm := List.perm_insertionSort (fun a b : Replacement => a.start ≤ b.start)
    (acceptedReps markdown)
  have hsorted : (sortedReps markdown).Pairwise (fun a b => a.start ≤ b.start) :=
    List.sorted_insertionSort _ _
  have hpair : (sortedReps markdown).Pairwise Disj :=
    (hperm.pairwise_iff (fun h => Or.symm h)).mpr (acceptedReps_pairwise markdown)
  apply List.Pairwise.chain'
  have hcomb := hsorted.and hpair
  apply List.Pairwise.imp_of_mem ?_ hcomb
  intro a b ha hb hab
  obtain ⟨hle, hdisj⟩ := hab
  have hva := (sortedReps_shape markdown a ha).2.2.2.1
  have hvb := (sortedReps_shape markdown b hb).2.2.2.1
  rcases hdisj with h | h
  · exact h
  · omega

/-- The concatenated text of the built segments is exactly the source with
the accepted delimiters stripped. -/
theorem segmentsText_buildSegments (markdown : List Char) :
    ∀ (rs : List Replacement) (ti : ℕ),
      segmentsText (buildSegments markdown rs ti) = stripAccepted markdown rs ti := by
  intro rs
  induction rs with
  | nil =>
    intro ti
    rw [buildSegments, stripAccepted]
    by_cases h : ((markdown.drop ti) : List Char).isEmpty
    · rw [if_pos h]
      have : markdown.drop ti = [] := by
        rwa [List.isEmpty_iff] at h
      rw [this]
      rfl
    · rw [if_neg h]
      simp [segmentsText]
  | cons r rs ih =>
    intro ti
    rw [buildSegments, stripAccepted]
    by_cases h : (((markdown.drop ti).take (r.start - ti)) : List Char).isEmpty
    · rw [if_pos h]
      have h0 : (markdown.drop ti).take (r.start - ti) = [] := by
        rwa [List.isEmpty_iff] at h
      rw [h0]
      simp only [List.nil_append, segmentsText, List.map_cons, List.flatten_cons]
      rw [← segmentsText, ih]
      rfl
    · rw [if_neg h]
      simp only [segmentsText, List.map_append, List.map_cons, List.flatten_append,
        List.flatten_cons, List.map_nil, List.flatten_nil]
      rw [← segmentsText, ih]
      simp [styledSegment, List.append_assoc]

/-- The segment list built for a nonempty replacement list is nonempty (it
contains at least the styled segment). -/
theorem buildSegments_cons_ne_nil (markdown : List Char) (r : Replacement)
    (rs : List Replacement) (ti : ℕ) : buildSegments markdown (r :: rs) ti ≠ [] := by
  rw [buildSegments]
  intro hcon
  rcases List.append_eq_nil.mp hcon with ⟨_, h2⟩
  exact List.cons_ne_nil _ _ h2

/-- Claim C1: segment reconstruction for the inline formatter.  The accepted
spans are genuine spans of the input (delimiters plus nonempty capture, in
bounds), they are sorted and pairwise non-overlapping, and the concatenation
of `segment.text` over `parseMarkdownToFormattedText markdown` equals the
input with precisely the delimiters of the accepted spans stripped — each
plain-text character is copied exactly once and each accepted span
contributes its inner text exactly once. -/
theorem parseMarkdownToFormattedText_reconstruction (markdown : List Char) :
    (∀ r ∈ sortedReps markdown, MatchShape markdown r) ∧
      List.Chain' (fun a b => a.stop ≤ b.start) (sortedReps markdown) ∧
      segmentsText (parseMarkdownToFormattedText markdown) =
        stripAccepted markdown (sortedReps markdown) 0 := by
  refine ⟨sortedReps_shape markdown, sortedReps_chain markdown, ?_⟩
  rw [parseMarkdownToFormattedText]
  by_cases h : (buildSegments markdown (sortedReps markdown) 0 : List FormattedTextSegment).isEmpty
  · rw [if_pos h]
    rw [List.isEmpty_iff] at h
    cases hrs : sortedReps markdown with
    | nil =>
      rw [hrs] at h
      rw [buildSegments] at h
      by_cases h0 : ((markdown.drop 0) : List Char).isEmpty
      · have hmd : markdown = [] := by
          rw [List.drop_zero] at h0
          rwa [List.isEmpty_iff] at h0
        subst hmd
        rfl
      · rw [if_neg h0] at h
        simp at h
    | cons r rs =>
      rw [hrs] at h
      exact absurd h (buildSegments_cons_ne_nil markdown r rs 0)
  · rw [if_neg h]
    exact segmentsText_buildSegments markdown (sortedReps markdown) 0


end GSlides
